import Mathlib

/-!
Verification development for the terminal file-viewer component
(package `ui`, file `viewer.go`).  Go strings are modelled as `List Char`
(one `Char` per byte; all bytes the code inspects are ASCII), Go `int`
as `Int` (with `Int.tdiv` / `Int.tmod` for Go's truncated division and
remainder), and the `FileViewer` struct as a Lean structure.  Fallible
external calls (stat, read, the chroma highlighter) are passed in as
explicit `Except` / `Option` arguments.
-/

/-- The ASCII escape character that starts an ANSI colour sequence. -/
def escChar : Char := Char.ofNat 27

/-- Go `unicode.IsSpace` restricted to the ASCII whitespace the viewer
can ever meet (the command buffer only accepts printable single-byte
keys, and loaded content has tabs and CR/LF already rewritten). -/
def goIsSpace (c : Char) : Bool :=
  c = ' ' || c = '\t' || c = '\n' || c = '\r' ||
  c = Char.ofNat 11 || c = Char.ofNat 12

/-- Go `strings.HasPrefix hay pre`: does `hay` start with `pre`. -/
def startsWith : List Char → List Char → Bool
  | _, [] => true
  | [], _ :: _ => false
  | c :: cs, d :: ds => c = d && startsWith cs ds

/-- Go `strings.Contains hay needle`: some suffix of `hay` starts with
`needle`. -/
def strContains : List Char → List Char → Bool
  | [], needle => startsWith [] needle
  | c :: cs, needle => startsWith (c :: cs) needle || strContains cs needle

/-- Go `strings.Index hay needle`: byte index of the first occurrence,
`-1` if absent. -/
def strIndex : List Char → List Char → Int
  | hay, needle =>
    if startsWith hay needle then 0
    else
      match hay with
      | [] => -1
      | _ :: cs =>
        let r := strIndex cs needle
        if r < 0 then -1 else r + 1

/-- Go `strings.TrimSpace` (both ends). -/
def trimSpace (s : List Char) : List Char :=
  ((s.dropWhile goIsSpace).reverse.dropWhile goIsSpace).reverse

/-- Go `strings.ToLower`, byte-wise (ASCII). -/
def toLowerStr (s : List Char) : List Char := s.map Char.toLower

/-- Helper for `goFields`: accumulates the current field (reversed). -/
def goFieldsAux : List Char → List Char → List (List Char)
  | [], acc => if acc = [] then [] else [acc.reverse]
  | c :: cs, acc =>
    if goIsSpace c then
      if acc = [] then goFieldsAux cs [] else acc.reverse :: goFieldsAux cs []
    else goFieldsAux cs (c :: acc)

/-- Go `strings.Fields`: split on runs of whitespace, dropping empties. -/
def goFields (s : List Char) : List (List Char) := goFieldsAux s []

/-- Go `strings.Split s "\n"`: `n` separators give `n+1` parts; the empty
string gives one empty part. -/
def splitLines : List Char → List (List Char)
  | [] => [[]]
  | c :: cs =>
    if c = '\n' then [] :: splitLines cs
    else
      match splitLines cs with
      | [] => [[c]]
      | p :: ps => (c :: p) :: ps

/-- Go `strings.ReplaceAll s "\r\n" "\n"`: left-to-right, non-overlapping. -/
def normalizeCRLF : List Char → List Char
  | [] => []
  | [c] => [c]
  | c :: d :: rest =>
    if c = '\r' && d = '\n' then '\n' :: normalizeCRLF rest
    else c :: normalizeCRLF (d :: rest)

/-- Go `strings.ReplaceAll s "\r" ""`: delete every carriage return. -/
def removeCR (s : List Char) : List Char := s.filter (fun c => c ≠ '\r')

/-- Go `strings.ReplaceAll s "\t" "    "`: each tab becomes four spaces. -/
def expandTabs (s : List Char) : List Char :=
  s.flatMap (fun c => if c = '\t' then [' ', ' ', ' ', ' '] else [c])

/-- The full normalization pipeline of `loadFile` (viewer.go lines
232-239): CRLF to LF, strip remaining CR, expand tabs. -/
def normalizeContent (data : List Char) : List Char :=
  expandTabs (removeCR (normalizeCRLF data))

/-- The `FileViewer` struct (viewer.go lines 24-41).  `Err` is the load
error message, `none` when loading succeeded. -/
structure FileViewer where
  FilePath : List Char
  FileName : List Char
  Content : List (List Char)
  HighlightedContent : List (List Char)
  ScrollPos : Int
  Width : Int
  Height : Int
  Err : Option (List Char)
  UseSyntaxHighlight : Bool
  WrapLines : Bool
  CommandMode : Bool
  CommandBuffer : List Char
  StatusMessage : List Char
  SearchTerm : List Char
  SearchMatches : List Nat
  CurrentMatchIndex : Int
deriving DecidableEq

/-- The forward scan of `performSearch` (viewer.go lines 166-171):
collect the indices, counting from `i`, of the lines whose lower-cased
text contains `lterm`. -/
def findMatchesFrom (lterm : List Char) : Nat → List (List Char) → List Nat
  | _, [] => []
  | i, line :: rest =>
    if strContains (toLowerStr line) lterm then
      i :: findMatchesFrom lterm (i + 1) rest
    else findMatchesFrom lterm (i + 1) rest

/-- `performSearch` (viewer.go lines 154-181). -/
def performSearch (fv : FileViewer) (term : List Char) : FileViewer :=
  if term = [] then
    { fv with SearchTerm := [], SearchMatches := [], CurrentMatchIndex := -1,
              StatusMessage := "Search cleared".data }
  else
    let lterm := toLowerStr term
    let ms := findMatchesFrom lterm 0 fv.Content
    match ms with
    | m :: _ =>
      { fv with SearchTerm := lterm, SearchMatches := ms,
                CurrentMatchIndex := 0, ScrollPos := (m : Int),
                StatusMessage :=
                  "Found ".data ++ (Nat.repr ms.length).data ++
                  " match(es) - n: next, N: prev".data }
    | [] =>
      { fv with SearchTerm := lterm, SearchMatches := [],
                CurrentMatchIndex := -1,
                StatusMessage := "Pattern not found: ".data ++ term }

/-- The `"Match %d of %d"` status line. -/
def matchStatus (i n : Int) : List Char :=
  "Match ".data ++ (toString i).data ++ " of ".data ++ (toString n).data

/-- Go indexing `l[i]` for `i : Int`; the viewer only indexes with a
value already known to be in range, so the default is never read. -/
def goIndex (l : List Nat) (i : Int) : Nat := l.getD i.toNat 0

/-- `nextMatch` (viewer.go lines 184-193); Go `%` is `Int.tmod`. -/
def nextMatch (fv : FileViewer) : FileViewer :=
  if fv.SearchMatches.length = 0 then
    { fv with StatusMessage := "No active search".data }
  else
    let n : Int := fv.SearchMatches.length
    let cmi := Int.tmod (fv.CurrentMatchIndex + 1) n
    { fv with CurrentMatchIndex := cmi,
              ScrollPos := (goIndex fv.SearchMatches cmi : Int),
              StatusMessage := matchStatus (cmi + 1) n }

/-- `prevMatch` (viewer.go lines 196-208). -/
def prevMatch (fv : FileViewer) : FileViewer :=
  if fv.SearchMatches.length = 0 then
    { fv with StatusMessage := "No active search".data }
  else
    let n : Int := fv.SearchMatches.length
    let dec := fv.CurrentMatchIndex - 1
    let cmi := if dec < 0 then n - 1 else dec
    { fv with CurrentMatchIndex := cmi,
              ScrollPos := (goIndex fv.SearchMatches cmi : Int),
              StatusMessage := matchStatus (cmi + 1) n }

/-- `executeCommand` (viewer.go lines 63-151). -/
def executeCommand (fv : FileViewer) (cmd0 : List Char) : FileViewer :=
  let cmd := trimSpace cmd0
  if cmd = [] then fv
  else if startsWith cmd "/".data then
    performSearch fv (cmd.drop 1)
  else
    match goFields cmd with
    | [] => fv
    | command :: rest =>
      if command = "/".data ∨ command = "search".data then
        if rest = [] then
          { fv with StatusMessage := "Usage: :search <term> or :/<term>".data }
        else performSearch fv (List.intercalate " ".data rest)
      else if command = "set".data then
        match rest with
        | [] => { fv with StatusMessage := "Error: :set requires an argument".data }
        | option :: _ =>
          if option = "wrap".data then
            { fv with WrapLines := true, StatusMessage := "Line wrapping enabled".data }
          else if option = "nowrap".data then
            { fv with WrapLines := false, StatusMessage := "Line wrapping disabled".data }
          else if option = "syntax".data then
            { fv with UseSyntaxHighlight := true,
                      StatusMessage := "Syntax highlighting enabled".data }
          else if option = "nosyntax".data then
            { fv with UseSyntaxHighlight := false,
                      StatusMessage := "Syntax highlighting disabled".data }
          else
            { fv with StatusMessage :=
                "Unknown option '".data ++ option ++ "'".data }
      else if command = "wrap".data then
        if fv.WrapLines then
          { fv with WrapLines := false, StatusMessage := "Line wrapping disabled".data }
        else
          { fv with WrapLines := true, StatusMessage := "Line wrapping enabled".data }
      else if command = "syntax".data then
        if fv.UseSyntaxHighlight then
          { fv with UseSyntaxHighlight := false,
                    StatusMessage := "Syntax highlighting disabled".data }
        else
          { fv with UseSyntaxHighlight := true,
                    StatusMessage := "Syntax highlighting enabled".data }
      else if command = "help".data ∨ command = "h".data then
        { fv with StatusMessage :=
            "Commands: :set [wrap|nowrap] | :set [syntax|nosyntax] | :help".data }
      else if command = "n".data ∨ command = "next".data then
        nextMatch fv
      else if command = "N".data ∨ command = "prev".data ∨ command = "previous".data then
        prevMatch fv
      else if command = "clear".data ∨ command = "clearsearch".data then
        performSearch fv []
      else
        { fv with StatusMessage :=
            "Unknown command '".data ++ command ++ "' (try :help)".data }

/-- The 10 MiB ceiling of `loadFile` (viewer.go line 213). -/
def maxFileSize : Nat := 10 * 1024 * 1024

/-- `applySyntaxHighlighting` (viewer.go lines 249-296) with the chroma
tokenise-and-format pipeline abstracted as `hl`: `none` models a
tokeniser or formatter error (plain-content fallback), `some out` the
produced ANSI text, which is then split like the plain content. -/
def applyHi (hl : List Char → Option (List Char)) (fv : FileViewer)
    (content : List Char) : FileViewer :=
  match hl content with
  | none => { fv with HighlightedContent := fv.Content }
  | some out =>
      { fv with HighlightedContent := splitLines (removeCR (normalizeCRLF out)) }

/-- `NewFileViewer` plus `loadFile` (viewer.go lines 44-60 and 211-246).
`statRes` is the result of `os.Stat` (the size) and `readRes` the result
of `os.ReadFile` (the bytes). -/
def newFileViewer (hl : List Char → Option (List Char))
    (filePath fileName : List Char)
    (statRes : Except (List Char) Nat)
    (readRes : Except (List Char) (List Char)) : FileViewer :=
  let fv : FileViewer :=
    { FilePath := filePath, FileName := fileName, Content := [],
      HighlightedContent := [], ScrollPos := 0, Width := 0, Height := 0,
      Err := none, UseSyntaxHighlight := true, WrapLines := false,
      CommandMode := false, CommandBuffer := [], StatusMessage := [],
      SearchTerm := [], SearchMatches := [], CurrentMatchIndex := -1 }
  match statRes with
  | .error e => { fv with Err := some e }
  | .ok size =>
    if size > maxFileSize then
      { fv with Err := some "file too large (max 10MB)".data }
    else
      match readRes with
      | .error e => { fv with Err := some e }
      | .ok data =>
        let content := normalizeContent data
        let fv := { fv with Content := splitLines content }
        if fv.UseSyntaxHighlight then applyHi hl fv content else fv

/-- `Update` (viewer.go lines 299-393): one key event.  Go's `switch
msg.String()` is modelled by comparing the key name. -/
def update (fv : FileViewer) (key : List Char) : FileViewer :=
  if fv.CommandMode then
    if key = "enter".data then
      let fv2 := executeCommand fv fv.CommandBuffer
      { fv2 with CommandMode := false, CommandBuffer := [] }
    else if key = "esc".data ∨ key = "ctrl+c".data then
      { fv with CommandMode := false, CommandBuffer := [], StatusMessage := [] }
    else if key = "backspace".data then
      if fv.CommandBuffer.length > 0 then
        { fv with CommandBuffer := fv.CommandBuffer.dropLast }
      else fv
    else if key.length = 1 then
      { fv with CommandBuffer := fv.CommandBuffer ++ key }
    else fv
  else
    let maxVisible : Int := fv.Height - 6
    if key = ":".data then
      { fv with CommandMode := true, CommandBuffer := [], StatusMessage := [] }
    else if key = "n".data then nextMatch fv
    else if key = "N".data then prevMatch fv
    else if key = "up".data ∨ key = "k".data then
      if fv.ScrollPos > 0 then { fv with ScrollPos := fv.ScrollPos - 1 } else fv
    else if key = "down".data ∨ key = "j".data then
      let ms0 := (fv.Content.length : Int) - maxVisible
      let maxScroll := if ms0 < 0 then 0 else ms0
      if fv.ScrollPos < maxScroll then { fv with ScrollPos := fv.ScrollPos + 1 } else fv
    else if key = "g".data then
      { fv with ScrollPos := 0 }
    else if key = "G".data then
      let ms0 := (fv.Content.length : Int) - maxVisible
      let maxScroll := if ms0 < 0 then 0 else ms0
      { fv with ScrollPos := maxScroll }
    else if key = "pageup".data ∨ key = "ctrl+u".data then
      let p := fv.ScrollPos - Int.tdiv maxVisible 2
      { fv with ScrollPos := if p < 0 then 0 else p }
    else if key = "pagedown".data ∨ key = "ctrl+d".data then
      let ms0 := (fv.Content.length : Int) - maxVisible
      let maxScroll := if ms0 < 0 then 0 else ms0
      let p := fv.ScrollPos + Int.tdiv maxVisible 2
      { fv with ScrollPos := if p > maxScroll then maxScroll else p }
    else fv

/-- `visualLength`'s scanner state machine (viewer.go lines 438-455),
parameterized by the current in-escape flag. -/
def visualLengthAux : List Char → Bool → Nat
  | [], _ => 0
  | c :: cs, inEsc =>
    if c = escChar then visualLengthAux cs true
    else if inEsc then
      if c = 'm' then visualLengthAux cs false else visualLengthAux cs true
    else 1 + visualLengthAux cs false

/-- `visualLength` (viewer.go lines 438-455): visible characters,
skipping ANSI colour sequences. -/
def visualLength (s : List Char) : Nat := visualLengthAux s false

/-- The in-escape flag left by the scanner after reading `s`. -/
def escStateAux : List Char → Bool → Bool
  | [], ie => ie
  | c :: cs, ie =>
    if c = escChar then escStateAux cs true
    else if ie then
      if c = 'm' then escStateAux cs false else escStateAux cs true
    else escStateAux cs false

/-- `findBreakPoint`'s scan (viewer.go lines 499-527): `i` the byte
index, `visualPos` the visible count so far, `lastSpace` the byte index
of the last break character (`-1` initially). -/
def findBreakPointAux (maxWidth : Int) :
    List Char → Nat → Nat → Int → Bool → Int
  | [], i, _, _, _ => (i : Int)
  | c :: cs, i, visualPos, lastSpace, inEsc =>
    if c = escChar then findBreakPointAux maxWidth cs (i + 1) visualPos lastSpace true
    else if inEsc then
      if c = 'm' then findBreakPointAux maxWidth cs (i + 1) visualPos lastSpace false
      else findBreakPointAux maxWidth cs (i + 1) visualPos lastSpace true
    else
      let vp := visualPos + 1
      let ls : Int :=
        if c = ' ' || c = '\t' || c = '-' || c = ',' || c = '.' then (i : Int)
        else lastSpace
      if (vp : Int) ≥ maxWidth then
        if ls > 0 ∧ ls > (i : Int) - 20 then ls + 1 else (i : Int)
      else findBreakPointAux maxWidth cs (i + 1) vp ls false

/-- `findBreakPoint` (viewer.go lines 490-530). -/
def findBreakPoint (s : List Char) (maxWidth : Int) : Int :=
  if maxWidth ≤ 0 then 0 else findBreakPointAux maxWidth s 0 0 (-1) false

/-- The adjusted break point of one `wrapLine` iteration (viewer.go
lines 417-420): the scan's answer, or `availableWidth` when the scan
returned zero or less. -/
def wrapBreak (availableWidth : Int) (remaining : List Char) : Int :=
  if findBreakPoint remaining availableWidth ≤ 0 then availableWidth
  else findBreakPoint remaining availableWidth

/-- The wrap loop of `wrapLine` (viewer.go lines 415-432), with fuel for
totality; one unit of fuel per loop iteration (for `availableWidth ≥ 1`
every iteration consumes at least one byte, so `line.length + 1` fuel is
never exhausted). -/
def wrapLineAux (availableWidth : Int) : Nat → List Char → List (List Char)
  | 0, remaining => if remaining = [] then [] else [remaining]
  | fuel + 1, remaining =>
    if remaining ≠ [] ∧ (visualLength remaining : Int) > availableWidth then
      remaining.take (wrapBreak availableWidth remaining).toNat ::
        wrapLineAux availableWidth fuel
          (remaining.drop (wrapBreak availableWidth remaining).toNat)
    else if remaining = [] then [] else [remaining]

/-- `wrapLine` (viewer.go lines 396-435); the line-number gutter width
is the constant 8, and the `lineNum` parameter is accepted and unused
exactly as in the source. -/
def wrapLine (line : List Char) (width : Int) (lineNum : Int) : List (List Char) :=
  if width ≤ 0 then [line]
  else if (visualLength line : Int) ≤ width - 8 then [line]
  else wrapLineAux (width - 8) (line.length + 1) line

/-- The scan of `truncateAtVisualWidth` (viewer.go lines 463-486);
`orig` is the whole string, returned untouched when the width is never
reached. -/
def truncAux (maxWidth : Int) (orig : List Char) :
    List Char → Nat → Nat → Bool → List Char
  | [], _, _, _ => orig
  | c :: cs, i, vp, ie =>
    if c = escChar then truncAux maxWidth orig cs (i + 1) vp true
    else if ie then
      if c = 'm' then truncAux maxWidth orig cs (i + 1) vp false
      else truncAux maxWidth orig cs (i + 1) vp true
    else
      let vp2 := vp + 1
      if (vp2 : Int) ≥ maxWidth then orig.take (i + 1)
      else truncAux maxWidth orig cs (i + 1) vp2 false

/-- `truncateAtVisualWidth` (viewer.go lines 458-487). -/
def truncateAtVisualWidth (s : List Char) (maxWidth : Int) : List Char :=
  if maxWidth ≤ 0 then [] else truncAux maxWidth s s 0 0 false

/-- The yellow-background black-text marker of `highlightSearchMatches`. -/
def ansiHiOn : List Char := escChar :: "[43m".data ++ escChar :: "[30m".data

/-- The reset marker of `highlightSearchMatches`. -/
def ansiHiOff : List Char := escChar :: "[0m".data

/-- The splice loop of `highlightSearchMatches` (viewer.go lines
551-567), with fuel (each round advances `pos` by at least
`searchLen ≥ 1`). -/
def hsmLoop (line lowerLine lowerTerm : List Char) (searchLen : Nat) :
    Nat → Nat → List Char
  | 0, pos => line.drop pos
  | fuel + 1, pos =>
    let idx := strIndex (lowerLine.drop pos) lowerTerm
    if idx = -1 then line.drop pos
    else
      let actualIdx := pos + idx.toNat
      (line.drop pos).take idx.toNat ++ ansiHiOn ++
        (line.drop actualIdx).take searchLen ++ ansiHiOff ++
        hsmLoop line lowerLine lowerTerm searchLen fuel (actualIdx + searchLen)

/-- `highlightSearchMatches` (viewer.go lines 533-570). -/
def highlightSearchMatches (line searchTerm : List Char) : List Char :=
  if searchTerm = [] then line
  else
    let lowerLine := toLowerStr line
    let lowerTerm := toLowerStr searchTerm
    if strContains lowerLine lowerTerm = false then line
    else hsmLoop line lowerLine lowerTerm searchTerm.length (line.length + 1) 0

/-- The `fmt.Sprintf "%4d"` gutter number: right-aligned in four cells. -/
def pad4 (n : Int) : List Char :=
  let s := (toString n).data
  List.replicate (4 - s.length) ' ' ++ s

/-- The numbered gutter `"%4d │ "` of `View` (viewer.go line 621). -/
def gutterFor (n : Int) : List Char := pad4 n ++ " │ ".data

/-- The continuation gutter of wrapped lines (viewer.go line 635). -/
def contGutter : List Char := "     ╎ ".data

/-- One output row in the no-wrap branch of `View` (viewer.go lines
639-650): truncate with ellipsis when the visible length exceeds
`Width - 10`. -/
def renderRowNoWrap (width i : Int) (line : List Char) : List Char :=
  let visualLen := (visualLength line : Int)
  let availableWidth := width - 10
  if availableWidth > 0 ∧ visualLen > availableWidth then
    gutterFor (i + 1) ++ truncateAtVisualWidth line (availableWidth - 3) ++ "...".data
  else gutterFor (i + 1) ++ line

/-- Continuation rows of a wrapped line (viewer.go lines 634-637),
bounded by the remaining row budget. -/
def contRows (maxVisible : Int) : List (List Char) → Int → List (List Char)
  | [], _ => []
  | w :: rest, lr =>
    if lr < maxVisible then (contGutter ++ w) :: contRows maxVisible rest (lr + 1)
    else []

/-- The content loop of `View` (viewer.go lines 608-652): `i` is the
line index, `lr` the `linesRendered` counter; the loop breaks when `i`
reaches the end of `ctd`.  Fuel is one per iteration. -/
def renderLoop (fv : FileViewer) (ctd : List (List Char))
    (visibleEnd maxVisible : Int) : Nat → Int → Int → List (List Char)
  | 0, _, _ => []
  | fuel + 1, i, lr =>
    if i < visibleEnd ∧ lr < maxVisible then
      if i ≥ (ctd.length : Int) then []
      else
        let line0 := ctd.getD i.toNat []
        let line :=
          if fv.SearchTerm ≠ [] then highlightSearchMatches line0 fv.SearchTerm
          else line0
        if fv.WrapLines then
          match wrapLine line fv.Width (i + 1) with
          | [] => renderLoop fv ctd visibleEnd maxVisible fuel (i + 1) lr
          | w0 :: ws =>
            let cont := contRows maxVisible ws (lr + 1)
            (gutterFor (i + 1) ++ w0) ::
              (cont ++ renderLoop fv ctd visibleEnd maxVisible fuel (i + 1)
                (lr + 1 + cont.length))
        else
          renderRowNoWrap fv.Width i line ::
            renderLoop fv ctd visibleEnd maxVisible fuel (i + 1) (lr + 1)
    else []

/-- The content rows produced by `View` (viewer.go lines 592-652): the
visible range is `[ScrollPos, ScrollPos + maxVisible)` clipped to the
content length, and the highlighted array is displayed whenever it is
non-empty and highlighting is on. -/
def renderBody (fv : FileViewer) : List (List Char) :=
  let maxVisible : Int := fv.Height - 6
  let visibleStart := fv.ScrollPos
  let ve0 := visibleStart + maxVisible
  let visibleEnd := if ve0 > (fv.Content.length : Int) then (fv.Content.length : Int) else ve0
  let ctd :=
    if 0 < fv.HighlightedContent.length ∧ fv.UseSyntaxHighlight then
      fv.HighlightedContent
    else fv.Content
  renderLoop fv ctd visibleEnd maxVisible ((visibleEnd - visibleStart).toNat + 1)
    visibleStart 0

/-- A closed default viewer state used by concrete test states. -/
def fv0 : FileViewer :=
  { FilePath := [], FileName := [], Content := [], HighlightedContent := [],
    ScrollPos := 0, Width := 80, Height := 26, Err := none,
    UseSyntaxHighlight := true, WrapLines := false, CommandMode := false,
    CommandBuffer := [], StatusMessage := [], SearchTerm := [],
    SearchMatches := [], CurrentMatchIndex := -1 }

/-- `splitLines` never returns the empty list. -/
theorem splitLines_ne_nil (s : List Char) : splitLines s ≠ [] := by
  match s with
  | [] => simp [splitLines]
  | c :: cs =>
    unfold splitLines
    split
    · simp
    · cases h : splitLines cs <;> simp

/-- `applyHi` changes only the `HighlightedContent` field. -/
theorem applyHi_content (hl : List Char → Option (List Char)) (fv : FileViewer)
    (content : List Char) :
    (applyHi hl fv content).Content = fv.Content ∧
    (applyHi hl fv content).Err = fv.Err := by
  unfold applyHi
  cases hl content <;> simp

/-- C7: submitting `set nowrap` and then `wrap` always leaves the wrap
flag on: the explicit set forces it off and the toggle then negates it,
for every starting value of the flag. -/
theorem set_nowrap_then_wrap_enables (fv : FileViewer) :
    (executeCommand (executeCommand fv "set nowrap".data) "wrap".data).WrapLines = true := by
  rfl

/-- C4: with stat and read succeeding, a file of exactly 10 MiB
(10*1024*1024 bytes) loads with no error, while any size at least one
byte over fails with the size-limit error and leaves `Content` empty. -/
theorem loadFile_size_limit (hl : List Char → Option (List Char))
    (fp fn : List Char) (size : Nat) (data : List Char) :
    (size = maxFileSize →
      (newFileViewer hl fp fn (.ok size) (.ok data)).Err = none) ∧
    (size > maxFileSize →
      (newFileViewer hl fp fn (.ok size) (.ok data)).Err =
        some "file too large (max 10MB)".data ∧
      (newFileViewer hl fp fn (.ok size) (.ok data)).Content = []) := by
  constructor
  · intro h
    have hle : ¬ size > maxFileSize := by omega
    unfold newFileViewer
    simp only [if_neg hle, if_true]
    exact (applyHi_content hl _ _).2
  · intro h
    unfold newFileViewer
    simp [h]

/-- Closed witness for the size-limit theorem at 10 MiB and 10 MiB + 1. -/
theorem loadFile_size_limit_witness :
    (newFileViewer (fun _ => none) [] [] (.ok 10485760) (.ok "a".data)).Err = none ∧
    (newFileViewer (fun _ => none) [] [] (.ok 10485761) (.ok "a".data)).Err =
      some "file too large (max 10MB)".data ∧
    (newFileViewer (fun _ => none) [] [] (.ok 10485761) (.ok "a".data)).Content = [] :=
  ⟨(loadFile_size_limit (fun _ => none) [] [] 10485760 "a".data).1 (by decide),
   (loadFile_size_limit (fun _ => none) [] [] 10485761 "a".data).2 (by decide)⟩

/-- C10: every successful load yields at least one raw line (splitting
always produces one part even for zero bytes), and a zero-byte file
yields exactly one empty line. -/
theorem load_rawLines_nonempty (hl : List Char → Option (List Char))
    (fp fn : List Char) (size : Nat) (data : List Char)
    (hsize : size ≤ maxFileSize) :
    (newFileViewer hl fp fn (.ok size) (.ok data)).Err = none ∧
    1 ≤ (newFileViewer hl fp fn (.ok size) (.ok data)).Content.length ∧
    (data = [] → (newFileViewer hl fp fn (.ok size) (.ok data)).Content = [[]]) := by
  have hle : ¬ size > maxFileSize := by omega
  unfold newFileViewer
  simp only [if_neg hle, if_true]
  refine ⟨(applyHi_content hl _ _).2, ?_, ?_⟩
  · rw [(applyHi_content hl _ _).1]
    have := splitLines_ne_nil (normalizeContent data)
    cases h : splitLines (normalizeContent data) with
    | nil => exact absurd h this
    | cons a t => simp
  · intro h
    rw [(applyHi_content hl _ _).1]
    subst h
    rfl

/-- Closed witness for the non-empty-lines theorem on a zero-byte file. -/
theorem load_rawLines_nonempty_witness :
    (newFileViewer (fun _ => none) [] [] (.ok 0) (.ok [])).Err = none ∧
    1 ≤ (newFileViewer (fun _ => none) [] [] (.ok 0) (.ok [])).Content.length ∧
    (newFileViewer (fun _ => none) [] [] (.ok 0) (.ok [])).Content = [[]] := by
  have h := load_rawLines_nonempty (fun _ => none) [] [] 0 [] (by decide)
  exact ⟨h.1, h.2.1, h.2.2 rfl⟩

/-- Builds a file from logical lines with a given separator: the
"equivalent file" construction of the line-ending test. -/
def joinWith (sep : List Char) : List (List Char) → List Char
  | [] => []
  | [l] => l
  | l :: l2 :: rest => l ++ sep ++ joinWith sep (l2 :: rest)

/-- Deleting CR distributes over append. -/
theorem removeCR_append (a b : List Char) :
    removeCR (a ++ b) = removeCR a ++ removeCR b := by
  simp [removeCR]

/-- A CR-free string is unchanged by delete-CR. -/
theorem removeCR_eq_self (l : List Char) (h : '\r' ∉ l) : removeCR l = l := by
  rw [removeCR, List.filter_eq_self]
  intro a ha
  simp only [ne_eq, decide_not, Bool.not_eq_true', decide_eq_false_iff_not]
  exact fun hEq => h (hEq ▸ ha)

/-- Rewriting CRLF to LF then deleting CR is the same as deleting CR. -/
theorem removeCR_normalizeCRLF (s : List Char) :
    removeCR (normalizeCRLF s) = removeCR s := by
  induction s using normalizeCRLF.induct with
  | case1 => rfl
  | case2 c => rfl
  | case3 c d rest h ih =>
    obtain ⟨hc, hd⟩ : c = '\r' ∧ d = '\n' := by simpa using h
    subst hc; subst hd
    rw [normalizeCRLF, if_pos h]
    show removeCR (['\n'] ++ normalizeCRLF rest) = removeCR (['\r', '\n'] ++ rest)
    rw [removeCR_append, removeCR_append, ih]
    rfl
  | case4 c d rest h ih =>
    rw [normalizeCRLF, if_neg h]
    show removeCR ([c] ++ normalizeCRLF (d :: rest)) = removeCR ([c] ++ (d :: rest))
    rw [removeCR_append, removeCR_append, ih]

/-- The whole pipeline collapses to delete-CR then expand-tabs. -/
theorem normalizeContent_eq (s : List Char) :
    normalizeContent s = expandTabs (removeCR s) := by
  unfold normalizeContent
  rw [removeCR_normalizeCRLF]

/-- Deleting CR from a joined file deletes it from the separators only,
when the lines are CR-free. -/
theorem removeCR_joinWith (lines : List (List Char))
    (h : ∀ l ∈ lines, '\r' ∉ l) (sep : List Char) :
    removeCR (joinWith sep lines) = joinWith (removeCR sep) lines := by
  induction lines with
  | nil => rfl
  | cons l t ih =>
    have hl : removeCR l = l := removeCR_eq_self l (h l (by simp))
    cases t with
    | nil => simpa [joinWith] using hl
    | cons l2 t2 =>
      simp only [joinWith]
      rw [removeCR_append, removeCR_append, hl,
        ih (fun x hx => h x (List.mem_cons_of_mem _ hx))]

/-- Joining with the empty separator is concatenation. -/
theorem joinWith_nil (lines : List (List Char)) :
    joinWith [] lines = lines.flatten := by
  induction lines with
  | nil => rfl
  | cons l t ih =>
    cases t with
    | nil => simp [joinWith]
    | cons l2 t2 => simp only [joinWith, List.flatten_cons, ih]; simp

/-- Tab expansion leaves no tab behind. -/
theorem tab_not_mem_expandTabs (s : List Char) : '\t' ∉ expandTabs s := by
  intro hmem
  rw [expandTabs, List.mem_flatMap] at hmem
  obtain ⟨a, _, ha⟩ := hmem
  by_cases hc : a = '\t'
  · simp [hc] at ha
  · simp [hc] at ha
    exact hc ha.symm

/-- The raw lines of a successful load are the normalized split. -/
theorem loadContent_eq (hl : List Char → Option (List Char))
    (fp fn : List Char) (size : Nat) (data : List Char)
    (hsize : size ≤ maxFileSize) :
    (newFileViewer hl fp fn (.ok size) (.ok data)).Content =
      splitLines (normalizeContent data) := by
  have hle : ¬ size > maxFileSize := by omega
  unfold newFileViewer
  simp only [if_neg hle, if_true]
  exact (applyHi_content hl _ _).1

/-- C5 counterexample: the loader deletes a bare CR instead of treating
it as a line break, so the file `"a\rb"` loads as the single line
`"ab"` while the equivalent LF file `"a\nb"` loads as two lines. -/
theorem bare_cr_not_linebreak :
    (newFileViewer (fun _ => none) [] [] (.ok 3) (.ok ['a', '\r', 'b'])).Content =
      [['a', 'b']] ∧
    (newFileViewer (fun _ => none) [] [] (.ok 3) (.ok ['a', '\n', 'b'])).Content =
      [['a'], ['b']] ∧
    [['a', 'b']] ≠ [['a'], ['b']] := by decide

/-- C5 amended: CRLF line endings are normalized to LF before
splitting, so a CRLF file produces the same raw lines as the equivalent
LF file; bare CR characters are deleted outright (a CR-separated file
loads as the lines concatenated, not split); tabs are expanded to a
fixed run of four spaces before splitting and the highlighter is
invoked on that same tab-expanded normalized text. -/
theorem lineEnding_normalization_amended
    (hl : List Char → Option (List Char)) (fp fn : List Char) (size : Nat)
    (lines : List (List Char)) (data : List Char)
    (hCR : ∀ l ∈ lines, '\r' ∉ l) (hsize : size ≤ maxFileSize) :
    (newFileViewer hl fp fn (.ok size) (.ok (joinWith ['\r', '\n'] lines))).Content =
      (newFileViewer hl fp fn (.ok size) (.ok (joinWith ['\n'] lines))).Content ∧
    (newFileViewer hl fp fn (.ok size) (.ok (joinWith ['\r'] lines))).Content =
      (newFileViewer hl fp fn (.ok size) (.ok lines.flatten)).Content ∧
    '\t' ∉ normalizeContent data ∧
    (newFileViewer hl fp fn (.ok size) (.ok data)).Content =
      splitLines (expandTabs (removeCR data)) ∧
    (newFileViewer hl fp fn (.ok size) (.ok data)).HighlightedContent =
      (match hl (normalizeContent data) with
       | none => splitLines (normalizeContent data)
       | some out => splitLines (removeCR (normalizeCRLF out))) := by
  have hle : ¬ size > maxFileSize := by omega
  refine ⟨?_, ?_, tab_not_mem_expandTabs _, ?_, ?_⟩
  · rw [loadContent_eq hl fp fn size _ hsize, loadContent_eq hl fp fn size _ hsize]
    rw [normalizeContent_eq, normalizeContent_eq]
    rw [removeCR_joinWith lines hCR, removeCR_joinWith lines hCR]
    rfl
  · rw [loadContent_eq hl fp fn size _ hsize, loadContent_eq hl fp fn size _ hsize]
    rw [normalizeContent_eq, normalizeContent_eq]
    rw [removeCR_joinWith lines hCR]
    have hflat : '\r' ∉ lines.flatten := by
      intro hmem
      rw [List.mem_flatten] at hmem
      obtain ⟨l, hlmem, hc⟩ := hmem
      exact hCR l hlmem hc
    rw [removeCR_eq_self _ hflat]
    show splitLines (expandTabs (joinWith [] lines)) = _
    rw [joinWith_nil]
  · rw [loadContent_eq hl fp fn size _ hsize, normalizeContent_eq]
  · unfold newFileViewer
    simp only [if_neg hle, if_true]
    unfold applyHi
    cases hl (normalizeContent data) <;> simp

/-- Closed witness for the amended line-ending theorem. -/
theorem lineEnding_normalization_amended_witness :
    (newFileViewer (fun _ => none) [] [] (.ok 3)
        (.ok (joinWith ['\r', '\n'] [['a'], ['b']]))).Content =
      (newFileViewer (fun _ => none) [] [] (.ok 3)
        (.ok (joinWith ['\n'] [['a'], ['b']]))).Content ∧
    '\t' ∉ normalizeContent ['x', '\t', 'y'] :=
  ⟨(lineEnding_normalization_amended (fun _ => none) [] [] 3 [['a'], ['b']]
      ['x', '\t', 'y'] (by decide) (by decide)).1,
   (lineEnding_normalization_amended (fun _ => none) [] [] 3 [['a'], ['b']]
      ['x', '\t', 'y'] (by decide) (by decide)).2.2.1⟩

/-- A viewer whose single line is `foo bar`, for the search-command test. -/
def fvC6 : FileViewer := { fv0 with Content := ["foo bar".data] }

/-- C6 counterexample: the buffer `/ foo bar` has `/` as its first token
followed by two more tokens, but the interpreter searches for the
literal remainder `" foo bar"` (leading space kept), not for the joined
tokens `"foo bar"`: on a file whose one line is `foo bar` it finds
nothing, while searching the joined tokens finds line 0. -/
theorem slash_search_counterexample :
    (executeCommand fvC6 "/ foo bar".data).SearchTerm = " foo bar".data ∧
    (executeCommand fvC6 "/ foo bar".data).SearchMatches = [] ∧
    (performSearch fvC6 (List.intercalate " ".data ["foo".data, "bar".data])).SearchMatches = [0] ∧
    " foo bar".data ≠ toLowerStr (List.intercalate " ".data ["foo".data, "bar".data]) := by
  decide

/-- C6 amended: when the trimmed buffer's first token is `search` and at
least one token follows, the interpreter searches for the remaining
tokens joined by single spaces; but a trimmed buffer starting with `/`
is handled by the vim-style shortcut, which searches for the literal
text after the `/` with its whitespace preserved (so `/ foo bar`
searches for `" foo bar"`, not `"foo bar"`). -/
theorem search_command_amended (fv : FileViewer) (buf : List Char)
    (rest : List (List Char)) :
    (startsWith (trimSpace buf) "/".data = true →
      executeCommand fv buf = performSearch fv ((trimSpace buf).drop 1)) ∧
    (startsWith (trimSpace buf) "/".data = false →
      goFields (trimSpace buf) = "search".data :: rest → rest ≠ [] →
      executeCommand fv buf = performSearch fv (List.intercalate " ".data rest)) := by
  constructor
  · intro h
    have hne : ¬ trimSpace buf = [] := by
      intro he
      rw [he] at h
      simp [startsWith] at h
    simp only [executeCommand, if_neg hne, h, if_true]
  · intro h1 h2 h3
    have hne : ¬ trimSpace buf = [] := by
      intro he
      rw [he] at h2
      simp [goFields, goFieldsAux] at h2
    simp only [executeCommand, if_neg hne, h1, Bool.false_eq_true, if_false, h2]
    simp +decide [h3]

/-- Closed witness for the amended search-command theorem: `/abc`
searches the literal `abc`, and `search foo bar` searches the joined
tokens `foo bar`. -/
theorem search_command_amended_witness :
    executeCommand fv0 "/abc".data = performSearch fv0 ((trimSpace "/abc".data).drop 1) ∧
    executeCommand fv0 "search foo bar".data =
      performSearch fv0 (List.intercalate " ".data ["foo".data, "bar".data]) :=
  ⟨(search_command_amended fv0 "/abc".data []).1 (by decide),
   (search_command_amended fv0 "search foo bar".data ["foo".data, "bar".data]).2
     (by decide) (by decide) (by decide)⟩

/-- Every string starts with itself. -/
theorem startsWith_refl (s : List Char) : startsWith s s = true := by
  induction s with
  | nil => rfl
  | cons c cs ih => simp [startsWith, ih]

/-- A string contains its own suffix. -/
theorem strContains_append_self (a b : List Char) : strContains (a ++ b) b = true := by
  induction a with
  | nil =>
    cases b with
    | nil => rfl
    | cons c cs => simp [strContains, startsWith_refl]
  | cons c cs ih => simp [strContains, ih]

/-- Membership in the forward scan: `j` is collected exactly when it
names a line (counting from `i`) whose lower-cased text contains the
needle. -/
theorem mem_findMatchesFrom (lt : List Char) (content : List (List Char)) :
    ∀ (i j : Nat), j ∈ findMatchesFrom lt i content ↔
      (i ≤ j ∧ j - i < content.length ∧
        strContains (toLowerStr (content.getD (j - i) [])) lt = true) := by
  induction content with
  | nil => intro i j; simp [findMatchesFrom]
  | cons line rest ih =>
    intro i j
    unfold findMatchesFrom
    split
    · next hline =>
      simp only [List.mem_cons]
      constructor
      · rintro (rfl | hmem)
        · exact ⟨le_refl _, by simp, by simpa [Nat.sub_self] using hline⟩
        · obtain ⟨h1, h2, h3⟩ := (ih (i + 1) j).mp hmem
          refine ⟨by omega, by simp only [List.length_cons]; omega, ?_⟩
          have hd : j - i = (j - (i + 1)) + 1 := by omega
          rw [hd]
          simpa using h3
      · rintro ⟨h1, h2, h3⟩
        by_cases hji : j = i
        · exact Or.inl hji
        · refine Or.inr ((ih (i + 1) j).mpr ⟨by omega, ?_, ?_⟩)
          · simp only [List.length_cons] at h2; omega
          · have hd : j - i = (j - (i + 1)) + 1 := by omega
            rw [hd] at h3
            simpa using h3
    · next hline =>
      rw [ih (i + 1) j]
      constructor
      · rintro ⟨h1, h2, h3⟩
        refine ⟨by omega, by simp only [List.length_cons]; omega, ?_⟩
        have hd : j - i = (j - (i + 1)) + 1 := by omega
        rw [hd]
        simpa using h3
      · rintro ⟨h1, h2, h3⟩
        by_cases hji : j = i
        · subst hji
          simp only [Nat.sub_self, List.getD_cons_zero] at h3
          exact absurd h3 hline
        · refine ⟨by omega, ?_, ?_⟩
          · simp only [List.length_cons] at h2; omega
          · have hd : j - i = (j - (i + 1)) + 1 := by omega
            rw [hd] at h3
            simpa using h3

/-- The forward scan produces a strictly increasing index list. -/
theorem findMatchesFrom_sorted (lt : List Char) (content : List (List Char)) :
    ∀ i, List.Pairwise (fun a b => a < b) (findMatchesFrom lt i content) := by
  induction content with
  | nil => intro i; simp [findMatchesFrom]
  | cons line rest ih =>
    intro i
    unfold findMatchesFrom
    split
    · refine List.pairwise_cons.mpr ⟨?_, ih (i + 1)⟩
      intro j hj
      have := ((mem_findMatchesFrom lt rest (i + 1) j).mp hj).1
      omega
    · exact ih (i + 1)

/-- C2: for a non-empty term, `performSearch` stores the lower-cased
term, collects exactly the indices of raw-content lines whose
lower-cased text contains it (strictly ascending, all below the line
count), sets the current match to 0 when a match exists, and on zero
matches leaves the index at -1 with a status containing the literal
searched text. -/
theorem performSearch_correct (fv : FileViewer) (term : List Char)
    (h : term ≠ []) :
    (performSearch fv term).SearchTerm = toLowerStr term ∧
    List.Pairwise (fun a b => a < b) (performSearch fv term).SearchMatches ∧
    (∀ j : Nat, j ∈ (performSearch fv term).SearchMatches ↔
      (j < fv.Content.length ∧
        strContains (toLowerStr (fv.Content.getD j [])) (toLowerStr term) = true)) ∧
    ((performSearch fv term).SearchMatches ≠ [] →
      (performSearch fv term).CurrentMatchIndex = 0) ∧
    ((performSearch fv term).SearchMatches = [] →
      (performSearch fv term).CurrentMatchIndex = -1 ∧
      strContains (performSearch fv term).StatusMessage term = true) := by
  have hmem := mem_findMatchesFrom (toLowerStr term) fv.Content 0
  have hsort := findMatchesFrom_sorted (toLowerStr term) fv.Content 0
  cases hms : findMatchesFrom (toLowerStr term) 0 fv.Content with
  | nil =>
    have hps : performSearch fv term =
        { fv with SearchTerm := toLowerStr term, SearchMatches := [],
                  CurrentMatchIndex := -1,
                  StatusMessage := "Pattern not found: ".data ++ term } := by
      simp only [performSearch, if_neg h, hms]
    rw [hps]
    refine ⟨rfl, by simp, ?_, by simp, fun _ =>
      ⟨rfl, strContains_append_self "Pattern not found: ".data term⟩⟩
    intro j
    constructor
    · intro hj
      exact absurd hj (by simp)
    · intro hj
      have hj2 := (hmem j).mpr ⟨Nat.zero_le j, by simpa using hj.1, by simpa using hj.2⟩
      rw [hms] at hj2
      exact absurd hj2 (by simp)
  | cons m tl =>
    have hps : performSearch fv term =
        { fv with SearchTerm := toLowerStr term, SearchMatches := m :: tl,
                  CurrentMatchIndex := 0, ScrollPos := (m : Int),
                  StatusMessage := "Found ".data ++ (Nat.repr (m :: tl).length).data ++
                    " match(es) - n: next, N: prev".data } := by
      simp only [performSearch, if_neg h, hms]
    rw [hps]
    refine ⟨rfl, by rw [← hms]; exact hsort, ?_, fun _ => rfl, by simp⟩
    intro j
    have hiff := hmem j
    rw [hms] at hiff
    constructor
    · intro hj
      obtain ⟨h1, h2, h3⟩ := hiff.mp hj
      exact ⟨by omega, by simpa using h3⟩
    · intro hj
      exact hiff.mpr ⟨Nat.zero_le j, by simpa using hj.1, by simpa using hj.2⟩

/-- Closed witness for the search-correctness theorem: case-insensitive
search for `BAR` on the one-line file `foo bar`. -/
theorem performSearch_correct_witness :
    (performSearch fvC6 "BAR".data).SearchTerm = toLowerStr "BAR".data ∧
    List.Pairwise (fun a b => a < b) (performSearch fvC6 "BAR".data).SearchMatches ∧
    (0 ∈ (performSearch fvC6 "BAR".data).SearchMatches ↔
      (0 < fvC6.Content.length ∧
        strContains (toLowerStr (fvC6.Content.getD 0 [])) (toLowerStr "BAR".data) = true)) :=
  have h := performSearch_correct fvC6 "BAR".data (by decide)
  ⟨h.1, h.2.1, h.2.2.1 0⟩

/-- C3: with no matches, `nextMatch` and `prevMatch` change only the
status message (to "No active search"); with matches and a current
index in range, `nextMatch` advances circularly (last wraps to 0),
`prevMatch` retreats circularly (0 wraps to last), and both snap
`ScrollPos` to the new current match's line and report the 1-based
position in the status. -/
theorem match_navigation_correct (fv : FileViewer) :
    (fv.SearchMatches = [] →
      nextMatch fv = { fv with StatusMessage := "No active search".data } ∧
      prevMatch fv = { fv with StatusMessage := "No active search".data }) ∧
    (fv.SearchMatches ≠ [] → 0 ≤ fv.CurrentMatchIndex →
      fv.CurrentMatchIndex < (fv.SearchMatches.length : Int) →
      ((nextMatch fv).CurrentMatchIndex =
          (if fv.CurrentMatchIndex = (fv.SearchMatches.length : Int) - 1 then 0
           else fv.CurrentMatchIndex + 1) ∧
        (nextMatch fv).ScrollPos =
          (goIndex fv.SearchMatches (nextMatch fv).CurrentMatchIndex : Int) ∧
        (nextMatch fv).StatusMessage =
          matchStatus ((nextMatch fv).CurrentMatchIndex + 1)
            (fv.SearchMatches.length : Int)) ∧
      ((prevMatch fv).CurrentMatchIndex =
          (if fv.CurrentMatchIndex = 0 then (fv.SearchMatches.length : Int) - 1
           else fv.CurrentMatchIndex - 1) ∧
        (prevMatch fv).ScrollPos =
          (goIndex fv.SearchMatches (prevMatch fv).CurrentMatchIndex : Int) ∧
        (prevMatch fv).StatusMessage =
          matchStatus ((prevMatch fv).CurrentMatchIndex + 1)
            (fv.SearchMatches.length : Int))) := by
  constructor
  · intro h
    constructor
    · unfold nextMatch
      rw [if_pos (by simp [h])]
    · unfold prevMatch
      rw [if_pos (by simp [h])]
  · intro h1 h2 h3
    have hlen : ¬ fv.SearchMatches.length = 0 := by
      intro h0
      exact h1 (List.length_eq_zero.mp h0)
    constructor
    · unfold nextMatch
      rw [if_neg hlen]
      refine ⟨?_, rfl, rfl⟩
      show Int.tmod (fv.CurrentMatchIndex + 1) (fv.SearchMatches.length : Int) = _
      by_cases hc : fv.CurrentMatchIndex = (fv.SearchMatches.length : Int) - 1
      · rw [if_pos hc, hc]
        have : (fv.SearchMatches.length : Int) - 1 + 1 = (fv.SearchMatches.length : Int) := by
          omega
        rw [this]
        exact Int.tmod_eq_zero_of_dvd dvd_rfl
      · rw [if_neg hc]
        exact Int.tmod_eq_of_lt (by omega) (by omega)
    · unfold prevMatch
      rw [if_neg hlen]
      refine ⟨?_, rfl, rfl⟩
      show (if fv.CurrentMatchIndex - 1 < 0 then (fv.SearchMatches.length : Int) - 1
            else fv.CurrentMatchIndex - 1) = _
      by_cases hc : fv.CurrentMatchIndex = 0
      · rw [if_pos (by omega), if_pos hc]
      · rw [if_neg (by omega), if_neg hc]

/-- A viewer with three matches and the current match at the last one. -/
def fvC3 : FileViewer := { fv0 with SearchMatches := [2, 5, 9], CurrentMatchIndex := 2 }

/-- Closed witness for the match-navigation theorem: empty-search no-op
on `fv0` and wrap-around from the last of three matches on `fvC3`. -/
theorem match_navigation_correct_witness :
    nextMatch fv0 = { fv0 with StatusMessage := "No active search".data } ∧
    (nextMatch fvC3).CurrentMatchIndex =
      (if fvC3.CurrentMatchIndex = (fvC3.SearchMatches.length : Int) - 1 then 0
       else fvC3.CurrentMatchIndex + 1) :=
  ⟨((match_navigation_correct fv0).1 rfl).1,
   (((match_navigation_correct fvC3).2 (by decide) (by decide) (by decide)).1).1⟩

/-- The spec's scroll invariant with the code's viewport height
`Height - 6` (the `maxVisible` of `Update` and `View`). -/
def scrollInv (fv : FileViewer) : Prop :=
  0 ≤ fv.ScrollPos ∧
  fv.ScrollPos ≤ max 0 ((fv.Content.length : Int) - (fv.Height - 6))

instance (fv : FileViewer) : Decidable (scrollInv fv) := by
  unfold scrollInv
  infer_instance

/-- A two-line viewer with a tall window, for the clamping test. -/
def fvC1 : FileViewer := { fv0 with Content := [['a'], ['b']] }

/-- C1 counterexample: on a two-line file in a 26-row window
(`maxScroll = 0`), searching `b` snaps `ScrollPos` to the match's line
index 1 without clamping, violating
`scrollPos ≤ max 0 (lineCount - viewportHeight)`. -/
theorem scroll_snap_unclamped :
    scrollInv fvC1 ∧ ¬ scrollInv (performSearch fvC1 ['b']) := by decide

/-- C1 amended: the navigation keys preserve the scroll invariant
(whenever the viewport height is non-negative), but `performSearch`
with at least one match, `nextMatch` and `prevMatch` set `ScrollPos` to
the raw line index of the current match with no clamping: the snap is
only guaranteed to lie in `[0, lineCount)`, and can exceed
`max 0 (lineCount - viewportHeight)`. -/
theorem scroll_invariant_amended (fv : FileViewer) (key term : List Char) :
    (fv.CommandMode = false → 6 ≤ fv.Height → scrollInv fv →
      key ∈ ["up".data, "k".data, "down".data, "j".data, "g".data, "G".data,
             "pageup".data, "ctrl+u".data, "pagedown".data, "ctrl+d".data] →
      scrollInv (update fv key)) ∧
    (term ≠ [] → (performSearch fv term).SearchMatches ≠ [] →
      0 ≤ (performSearch fv term).ScrollPos ∧
      (performSearch fv term).ScrollPos < (fv.Content.length : Int) ∧
      (performSearch fv term).ScrollPos =
        ((performSearch fv term).SearchMatches.getD 0 0 : Int)) ∧
    ((∀ m ∈ fv.SearchMatches, m < fv.Content.length) → fv.SearchMatches ≠ [] →
      0 ≤ fv.CurrentMatchIndex →
      fv.CurrentMatchIndex < (fv.SearchMatches.length : Int) →
      (0 ≤ (nextMatch fv).ScrollPos ∧
        (nextMatch fv).ScrollPos < (fv.Content.length : Int)) ∧
      (0 ≤ (prevMatch fv).ScrollPos ∧
        (prevMatch fv).ScrollPos < (fv.Content.length : Int))) := by
  refine ⟨?_, ?_, ?_⟩
  · intro h1 h2 h3 hkey
    have hdiv : 0 ≤ Int.tdiv (fv.Height - 6) 2 :=
      Int.tdiv_nonneg (by omega) (by omega)
    unfold scrollInv at h3
    unfold update
    rw [h1]
    simp only [Bool.false_eq_true, if_false]
    unfold scrollInv
    set q := Int.tdiv (fv.Height - 6) 2 with hq
    clear_value q
    fin_cases hkey <;> simp +decide <;> split_ifs <;> (try simp) <;> omega
  · intro h1 h2
    cases hms : findMatchesFrom (toLowerStr term) 0 fv.Content with
    | nil =>
      exfalso
      apply h2
      simp only [performSearch, if_neg h1, hms]
    | cons m tl =>
      have hm := (mem_findMatchesFrom (toLowerStr term) fv.Content 0 m).mp
        (by rw [hms]; exact List.mem_cons_self m tl)
      have hps : (performSearch fv term).ScrollPos = (m : Int) ∧
          (performSearch fv term).SearchMatches = m :: tl := by
        simp only [performSearch, if_neg h1, hms]
        exact ⟨trivial, trivial⟩
      rw [hps.1, hps.2]
      refine ⟨Int.natCast_nonneg m, ?_, rfl⟩
      have := hm.2.1
      omega
  · intro hval h1 h2 h3
    have hn0 : ¬ fv.SearchMatches.length = 0 := by
      intro h0
      exact h1 (List.length_eq_zero.mp h0)
    have hmemD : ∀ i : Int, 0 ≤ i → i < (fv.SearchMatches.length : Int) →
        0 ≤ (goIndex fv.SearchMatches i : Int) ∧
        (goIndex fv.SearchMatches i : Int) < (fv.Content.length : Int) := by
      intro i hi1 hi2
      have hlt : i.toNat < fv.SearchMatches.length := by omega
      have hmem : goIndex fv.SearchMatches i ∈ fv.SearchMatches := by
        unfold goIndex
        rw [List.getD_eq_getElem _ _ hlt]
        exact List.getElem_mem hlt
      exact ⟨Int.natCast_nonneg _, by exact_mod_cast hval _ hmem⟩
    constructor
    · have hnext : (nextMatch fv).ScrollPos =
          (goIndex fv.SearchMatches
            (Int.tmod (fv.CurrentMatchIndex + 1) (fv.SearchMatches.length : Int)) : Int) := by
        unfold nextMatch
        rw [if_neg hn0]
      rw [hnext]
      exact hmemD _ (Int.tmod_nonneg _ (by omega)) (Int.tmod_lt_of_pos _ (by omega))
    · have hprev : (prevMatch fv).ScrollPos =
          (goIndex fv.SearchMatches
            (if fv.CurrentMatchIndex - 1 < 0 then (fv.SearchMatches.length : Int) - 1
             else fv.CurrentMatchIndex - 1) : Int) := by
        unfold prevMatch
        rw [if_neg hn0]
      rw [hprev]
      by_cases hc : fv.CurrentMatchIndex - 1 < 0
      · rw [if_pos hc]
        exact hmemD _ (by omega) (by omega)
      · rw [if_neg hc]
        exact hmemD _ (by omega) (by omega)

/-- A ten-line viewer with matches at lines 2, 5, 9. -/
def fvNav : FileViewer :=
  { fv0 with Content := List.replicate 10 [], SearchMatches := [2, 5, 9],
             CurrentMatchIndex := 0 }

/-- Closed witness for the amended scroll theorem: a navigation step, a
search snap, and match navigation on concrete states. -/
theorem scroll_invariant_amended_witness :
    scrollInv (update fvC1 "down".data) ∧
    (0 ≤ (performSearch fvC1 ['b']).ScrollPos ∧
      (performSearch fvC1 ['b']).ScrollPos < (fvC1.Content.length : Int) ∧
      (performSearch fvC1 ['b']).ScrollPos =
        ((performSearch fvC1 ['b']).SearchMatches.getD 0 0 : Int)) ∧
    (0 ≤ (nextMatch fvNav).ScrollPos ∧
      (nextMatch fvNav).ScrollPos < (fvNav.Content.length : Int)) :=
  ⟨(scroll_invariant_amended fvC1 "down".data ['b']).1 rfl (by decide) (by decide)
      (by decide),
   (scroll_invariant_amended fvC1 "down".data ['b']).2.1 (by decide) (by decide),
   ((scroll_invariant_amended fvNav "down".data ['b']).2.2 (by decide) (by decide)
      (by decide) (by decide)).1⟩

/-- A viewer whose highlighted array is shorter than its raw content. -/
def fvC8 : FileViewer :=
  { fv0 with Content := ["aa".data, "bb".data],
             HighlightedContent := ["AA".data],
             Height := 12 }

/-- C8 counterexample: with highlighting on and a one-entry highlighted
array against two raw lines, the visible range covers both lines but
the render loop breaks at the end of the highlighted array: only line 1
is emitted and no row falls back to the raw text `bb` of line 2. -/
theorem render_no_fallback_counterexample :
    renderBody fvC8 = [gutterFor 1 ++ "AA".data] ∧
    fvC8.Content.length = 2 ∧
    2 ≤ fvC8.ScrollPos + (fvC8.Height - 6) ∧
    (∀ row ∈ renderBody fvC8, strContains row "bb".data = false) := by decide

/-- The render loop in no-wrap, no-search mode emits exactly one row
per index from `i` up to the end of the display array or of the visible
range, whichever is hit first. -/
theorem renderLoop_noWrap (fv : FileViewer) (ctd : List (List Char))
    (visibleEnd maxVisible : Int) (hW : fv.WrapLines = false)
    (hS : fv.SearchTerm = []) :
    ∀ (fuel : Nat) (i lr : Int), (visibleEnd - i).toNat ≤ fuel →
      visibleEnd - i ≤ maxVisible - lr → 0 ≤ i →
      renderLoop fv ctd visibleEnd maxVisible fuel i lr =
        (List.range (min visibleEnd (ctd.length : Int) - i).toNat).map
          (fun k : Nat =>
            renderRowNoWrap fv.Width (i + (k : Int))
              (ctd.getD (i + (k : Int)).toNat [])) := by
  intro fuel
  induction fuel with
  | zero =>
    intro i lr hfuel hlr hi
    have h2 : (min visibleEnd (ctd.length : Int) - i).toNat = 0 := by omega
    rw [h2]
    rfl
  | succ fuel ih =>
    intro i lr hfuel hlr hi
    unfold renderLoop
    by_cases hcond : i < visibleEnd
    · rw [if_pos ⟨hcond, by omega⟩]
      by_cases hend : i ≥ (ctd.length : Int)
      · rw [if_pos hend]
        have h2 : (min visibleEnd (ctd.length : Int) - i).toNat = 0 := by omega
        rw [h2]
        rfl
      · rw [if_neg hend]
        simp only [hS, hW, Bool.false_eq_true, if_false, ne_eq,
          not_true_eq_false, reduceIte]
        rw [ih (i + 1) (lr + 1) (by omega) (by omega) (by omega)]
        have hcount : (min visibleEnd (ctd.length : Int) - i).toNat =
            (min visibleEnd (ctd.length : Int) - (i + 1)).toNat + 1 := by omega
        rw [hcount, List.range_succ_eq_map, List.map_cons, List.map_map]
        have hhead : i + ((0 : Nat) : Int) = i := by norm_num
        rw [hhead]
        congr 1
        apply List.map_congr_left
        intro k _
        have harith : i + ((k + 1 : Nat) : Int) = i + 1 + (k : Int) := by
          push_cast
          ring
        simp only [Function.comp_apply, Nat.succ_eq_add_one, harith]
    · rw [if_neg (by intro hc; exact hcond hc.1)]
      have h2 : (min visibleEnd (ctd.length : Int) - i).toNat = 0 := by omega
      rw [h2]
      rfl

/-- C8 amended: with highlighting enabled and a non-empty highlighted
array, rendering (no-wrap, no active search, non-negative scroll) reads
lines only from the highlighted array with every lookup bounds-guarded,
but the guard is a loop break, not a fallback: the rows are exactly one
per index from `ScrollPos` up to the earlier of the visible range's end
and the highlighted array's end, so visible-range lines at indices
beyond the highlighted array are omitted rather than rendered from the
raw lines. -/
theorem render_guard_amended (fv : FileViewer)
    (h1 : fv.UseSyntaxHighlight = true) (h2 : fv.HighlightedContent ≠ [])
    (h3 : fv.WrapLines = false) (h4 : fv.SearchTerm = [])
    (h5 : 0 ≤ fv.ScrollPos) :
    renderBody fv =
      (List.range
          ((min (min (fv.ScrollPos + (fv.Height - 6)) (fv.Content.length : Int))
              (fv.HighlightedContent.length : Int) - fv.ScrollPos)).toNat).map
        (fun k : Nat =>
          renderRowNoWrap fv.Width (fv.ScrollPos + (k : Int))
            (fv.HighlightedContent.getD (fv.ScrollPos + (k : Int)).toNat [])) := by
  have hlen : 0 < fv.HighlightedContent.length := List.length_pos.mpr h2
  have hctd : (if 0 < fv.HighlightedContent.length ∧ fv.UseSyntaxHighlight = true then
      fv.HighlightedContent else fv.Content) = fv.HighlightedContent := by
    rw [if_pos ⟨hlen, h1⟩]
  have hve : (if fv.ScrollPos + (fv.Height - 6) > (fv.Content.length : Int) then
      (fv.Content.length : Int) else fv.ScrollPos + (fv.Height - 6)) =
      min (fv.ScrollPos + (fv.Height - 6)) (fv.Content.length : Int) := by
    split <;> omega
  unfold renderBody
  simp only [hctd, hve]
  exact renderLoop_noWrap fv fv.HighlightedContent _ _ h3 h4 _ fv.ScrollPos 0
    (by omega) (by omega) h5

/-- Closed witness for the amended render-guard theorem on `fvC8`. -/
theorem render_guard_amended_witness :
    renderBody fvC8 =
      (List.range
          ((min (min (fvC8.ScrollPos + (fvC8.Height - 6)) (fvC8.Content.length : Int))
              (fvC8.HighlightedContent.length : Int) - fvC8.ScrollPos)).toNat).map
        (fun k : Nat =>
          renderRowNoWrap fvC8.Width (fvC8.ScrollPos + (k : Int))
            (fvC8.HighlightedContent.getD (fvC8.ScrollPos + (k : Int)).toNat [])) :=
  render_guard_amended fvC8 rfl (by decide) rfl rfl (by decide)

/-- The visible-length scanner splits over append, threading the escape
state. -/
theorem visualLengthAux_append (a b : List Char) :
    ∀ ie, visualLengthAux (a ++ b) ie =
      visualLengthAux a ie + visualLengthAux b (escStateAux a ie) := by
  induction a with
  | nil => intro ie; simp [visualLengthAux, escStateAux]
  | cons c a' ih =>
    intro ie
    by_cases hc : c = escChar
    · simp [visualLengthAux, escStateAux, hc, ih]
    · by_cases hie : ie
      · by_cases hm : c = 'm'
        · simp +decide [visualLengthAux, escStateAux, hc, hie, hm, ih]
        · simp [visualLengthAux, escStateAux, hc, hie, hm, ih]
      · simp only [Bool.not_eq_true] at hie
        simp [visualLengthAux, escStateAux, hc, hie, ih, Nat.add_assoc]

/-- The escape state after an append is threaded left to right. -/
theorem escStateAux_append (a b : List Char) :
    ∀ ie, escStateAux (a ++ b) ie = escStateAux b (escStateAux a ie) := by
  induction a with
  | nil => intro ie; simp [escStateAux]
  | cons c a' ih =>
    intro ie
    by_cases hc : c = escChar
    · simp [escStateAux, hc, ih]
    · by_cases hie : ie
      · by_cases hm : c = 'm'
        · simp +decide [escStateAux, hc, hie, hm, ih]
        · simp [escStateAux, hc, hie, hm, ih]
      · simp only [Bool.not_eq_true] at hie
        simp [escStateAux, hc, hie, ih]

/-- Visible length never exceeds byte length. -/
theorem visualLengthAux_le_length (s : List Char) :
    ∀ ie, visualLengthAux s ie ≤ s.length := by
  induction s with
  | nil => intro ie; simp [visualLengthAux]
  | cons c cs ih =>
    intro ie
    by_cases hc : c = escChar
    · simp only [visualLengthAux, hc, if_pos rfl, List.length_cons]
      exact Nat.le_succ_of_le (ih true)
    · by_cases hie : ie
      · by_cases hm : c = 'm'
        · simp only [visualLengthAux, if_neg hc, hie, if_true, hm, if_pos rfl,
            List.length_cons]
          exact Nat.le_succ_of_le (ih false)
        · simp only [visualLengthAux, if_neg hc, hie, if_true, if_neg hm,
            List.length_cons]
          exact Nat.le_succ_of_le (ih true)
      · simp only [Bool.not_eq_true] at hie
        simp only [visualLengthAux, if_neg hc, hie, Bool.false_eq_true,
          if_false, List.length_cons]
        have := ih false
        omega

/-- Taking at most the left part of an append stays in the left part. -/
theorem take_append_le (l₁ l₂ : List Char) (n : Nat) (h : n ≤ l₁.length) :
    (l₁ ++ l₂).take n = l₁.take n := by
  rw [List.take_append_eq_append_take]
  have h0 : n - l₁.length = 0 := by omega
  rw [h0]
  simp

/-- Taking one past the left part of an append takes one of the right. -/
theorem take_append_succ (l₁ l₂ : List Char) :
    (l₁ ++ l₂).take (l₁.length + 1) = l₁ ++ l₂.take 1 := by
  rw [List.take_append_eq_append_take]
  rw [List.take_of_length_le (by omega)]
  have h1 : l₁.length + 1 - l₁.length = 1 := by omega
  rw [h1]

/-- The last-break-character invariant survives appending a byte. -/
theorem ls_inv_mono (pre : List Char) (c : Char) (ls mw : Int)
    (h : ls = -1 ∨ (0 ≤ ls ∧ ls < (pre.length : Int) ∧
      (visualLengthAux (pre.take (ls.toNat + 1)) false : Int) ≤ mw)) :
    ls = -1 ∨ (0 ≤ ls ∧ ls < ((pre ++ [c]).length : Int) ∧
      (visualLengthAux ((pre ++ [c]).take (ls.toNat + 1)) false : Int) ≤ mw) := by
  rcases h with h | ⟨h1, h2, h3⟩
  · exact Or.inl h
  · refine Or.inr ⟨h1, by simp; omega, ?_⟩
    rw [take_append_le pre [c] _ (by omega)]
    exact h3

/-- Core invariant of the break-point scan: starting from a processed
prefix `pre` (whose visible count is still under the budget) the scan
returns a cut `r` with `0 ≤ r ≤ |pre| + |s|`, the cut prefix's visible
length within the budget, and — when the total visible length exceeds
the budget — a cut strictly inside the string. -/
theorem findBreakPointAux_spec (mw : Int) (hmw : 1 ≤ mw) :
    ∀ (s pre : List Char) (ls : Int),
      (visualLengthAux pre false : Int) < mw →
      (ls = -1 ∨ (0 ≤ ls ∧ ls < (pre.length : Int) ∧
        (visualLengthAux (pre.take (ls.toNat + 1)) false : Int) ≤ mw)) →
      0 ≤ findBreakPointAux mw s pre.length (visualLengthAux pre false) ls
          (escStateAux pre false) ∧
      findBreakPointAux mw s pre.length (visualLengthAux pre false) ls
          (escStateAux pre false) ≤ (pre.length : Int) + (s.length : Int) ∧
      (visualLengthAux ((pre ++ s).take
        (findBreakPointAux mw s pre.length (visualLengthAux pre false) ls
          (escStateAux pre false)).toNat) false : Int) ≤ mw ∧
      ((visualLengthAux pre false : Int) +
          (visualLengthAux s (escStateAux pre false) : Int) > mw →
        findBreakPointAux mw s pre.length (visualLengthAux pre false) ls
          (escStateAux pre false) < (pre.length : Int) + (s.length : Int)) := by
  intro s
  induction s with
  | nil =>
    intro pre ls hvp hls
    simp only [findBreakPointAux]
    refine ⟨Int.natCast_nonneg _, by simp, ?_, ?_⟩
    · rw [List.append_nil, Int.toNat_natCast, List.take_length]
      omega
    · intro hp
      simp only [visualLengthAux] at hp
      omega
  | cons c cs ih =>
    intro pre ls hvp hls
    by_cases hc : c = escChar
    · have h1 : (pre ++ [c]).length = pre.length + 1 := by simp
      have h2 : visualLengthAux (pre ++ [c]) false = visualLengthAux pre false := by
        rw [visualLengthAux_append]
        simp [visualLengthAux, hc]
      have h3 : escStateAux (pre ++ [c]) false = true := by
        rw [escStateAux_append]
        simp [escStateAux, hc]
      have hIH := ih (pre ++ [c]) ls (by rw [h2]; exact hvp) (ls_inv_mono pre c ls mw hls)
      rw [h1, h2, h3] at hIH
      have h4 : pre ++ [c] ++ cs = pre ++ c :: cs := by simp
      rw [h4] at hIH
      have hred : findBreakPointAux mw (c :: cs) pre.length (visualLengthAux pre false)
          ls (escStateAux pre false) =
          findBreakPointAux mw cs (pre.length + 1) (visualLengthAux pre false) ls true := by
        simp only [findBreakPointAux]
        rw [if_pos hc]
      rw [hred]
      obtain ⟨ha, hb, htake, hd⟩ := hIH
      refine ⟨ha, by simp only [List.length_cons]; push_cast at hb ⊢; omega, htake, ?_⟩
      intro hp
      have hvl : visualLengthAux (c :: cs) (escStateAux pre false) =
          visualLengthAux cs true := by
        simp [visualLengthAux, hc]
      rw [hvl] at hp
      have := hd hp
      simp only [List.length_cons]
      push_cast at this ⊢
      omega
    · by_cases hie : escStateAux pre false = true
      · have h1 : (pre ++ [c]).length = pre.length + 1 := by simp
        have h2 : visualLengthAux (pre ++ [c]) false = visualLengthAux pre false := by
          rw [visualLengthAux_append, hie]
          by_cases hm : c = 'm' <;> simp +decide [visualLengthAux, hc, hm]
        have h3 : escStateAux (pre ++ [c]) false =
            (if c = 'm' then false else true) := by
          rw [escStateAux_append, hie]
          by_cases hm : c = 'm' <;> simp +decide [escStateAux, hc, hm]
        have hIH := ih (pre ++ [c]) ls (by rw [h2]; exact hvp)
          (ls_inv_mono pre c ls mw hls)
        rw [h1, h2, h3] at hIH
        have h4 : pre ++ [c] ++ cs = pre ++ c :: cs := by simp
        rw [h4] at hIH
        have hred : findBreakPointAux mw (c :: cs) pre.length (visualLengthAux pre false)
            ls (escStateAux pre false) =
            findBreakPointAux mw cs (pre.length + 1) (visualLengthAux pre false) ls
              (if c = 'm' then false else true) := by
          simp only [findBreakPointAux]
          rw [if_neg hc, if_pos hie]
          by_cases hm : c = 'm' <;> simp [hm]
        rw [hred]
        obtain ⟨ha, hb, htake, hd⟩ := hIH
        refine ⟨ha, by simp only [List.length_cons]; push_cast at hb ⊢; omega, htake, ?_⟩
        intro hp
        have hvl : visualLengthAux (c :: cs) (escStateAux pre false) =
            visualLengthAux cs (if c = 'm' then false else true) := by
          rw [hie]
          by_cases hm : c = 'm' <;> simp +decide [visualLengthAux, hc, hm]
        rw [hvl] at hp
        have := hd hp
        simp only [List.length_cons]
        push_cast at this ⊢
        omega
      · -- visible byte
        have hie' : escStateAux pre false = false := by
          simpa using hie
        have hvlcons : visualLengthAux (c :: cs) (escStateAux pre false) =
            1 + visualLengthAux cs false := by
          rw [hie']
          simp [visualLengthAux, hc]
        have hred : findBreakPointAux mw (c :: cs) pre.length (visualLengthAux pre false)
            ls (escStateAux pre false) =
            (if ((visualLengthAux pre false + 1 : Nat) : Int) ≥ mw then
              (if (if (c = ' ' || c = '\t' || c = '-' || c = ',' || c = '.') = true
                    then (pre.length : Int) else ls) > 0 ∧
                  (if (c = ' ' || c = '\t' || c = '-' || c = ',' || c = '.') = true
                    then (pre.length : Int) else ls) > (pre.length : Int) - 20 then
                (if (c = ' ' || c = '\t' || c = '-' || c = ',' || c = '.') = true
                  then (pre.length : Int) else ls) + 1
              else (pre.length : Int))
            else
              findBreakPointAux mw cs (pre.length + 1) (visualLengthAux pre false + 1)
                (if (c = ' ' || c = '\t' || c = '-' || c = ',' || c = '.') = true
                  then (pre.length : Int) else ls) false) := by
          simp only [findBreakPointAux]
          rw [if_neg hc, if_neg hie]
        rw [hred]
        by_cases hret : ((visualLengthAux pre false + 1 : Nat) : Int) ≥ mw
        · rw [if_pos hret]
          have hvp1 : (visualLengthAux pre false : Int) + 1 ≤ mw := by omega
          have hlen1 : (1 : Int) ≤ ((c :: cs).length : Int) := by
            simp only [List.length_cons]
            push_cast
            omega
          by_cases hcb : (c = ' ' || c = '\t' || c = '-' || c = ',' || c = '.') = true
          · simp only [if_pos hcb]
            by_cases hguard : ((pre.length : Int) > 0 ∧
                (pre.length : Int) > (pre.length : Int) - 20)
            · simp only [if_pos hguard]
              refine ⟨by omega, ?_, ?_, ?_⟩
              · simp only [List.length_cons]
                push_cast
                omega
              · have ht : (((pre.length : Int) + 1).toNat) = pre.length + 1 := by omega
                rw [ht, take_append_succ]
                have h5 : (c :: cs).take 1 = [c] := rfl
                rw [h5, visualLengthAux_append, hie']
                have hvc : visualLengthAux [c] false = 1 := by
                  simp [visualLengthAux, hc]
                rw [hvc]
                push_cast
                omega
              · intro hp
                rw [hvlcons] at hp
                have hcs1 : 1 ≤ visualLengthAux cs false := by omega
                have := visualLengthAux_le_length cs false
                simp only [List.length_cons]
                push_cast
                omega
            · simp only [if_neg hguard]
              refine ⟨by omega, by simp only [List.length_cons]; push_cast; omega, ?_, ?_⟩
              · have ht : ((pre.length : Int)).toNat = pre.length := by omega
                rw [ht, take_append_le pre (c :: cs) _ (by omega), List.take_length]
                omega
              · intro hp
                simp only [List.length_cons]
                push_cast
                omega
          · simp only [if_neg hcb]
            by_cases hguard : (ls > 0 ∧ ls > (pre.length : Int) - 20)
            · rcases hls with h | ⟨hl1, hl2, hl3⟩
              · exfalso
                rw [h] at hguard
                omega
              · simp only [if_pos hguard]
                refine ⟨by omega, by simp only [List.length_cons]; push_cast; omega, ?_, ?_⟩
                · have ht : ((ls + 1).toNat) = ls.toNat + 1 := by omega
                  rw [ht, take_append_le pre (c :: cs) _ (by omega)]
                  exact hl3
                · intro hp
                  simp only [List.length_cons]
                  push_cast
                  omega
            · simp only [if_neg hguard]
              refine ⟨by omega, by simp only [List.length_cons]; push_cast; omega, ?_, ?_⟩
              · have ht : ((pre.length : Int)).toNat = pre.length := by omega
                rw [ht, take_append_le pre (c :: cs) _ (by omega), List.take_length]
                omega
              · intro hp
                simp only [List.length_cons]
                push_cast
                omega
        · rw [if_neg hret]
          have hvpnew : (visualLengthAux pre false : Int) + 1 < mw := by omega
          have h1 : (pre ++ [c]).length = pre.length + 1 := by simp
          have h2 : visualLengthAux (pre ++ [c]) false =
              visualLengthAux pre false + 1 := by
            rw [visualLengthAux_append, hie']
            simp [visualLengthAux, hc]
          have h3 : escStateAux (pre ++ [c]) false = false := by
            rw [escStateAux_append, hie']
            simp [escStateAux, hc]
          by_cases hcb : (c = ' ' || c = '\t' || c = '-' || c = ',' || c = '.') = true
          · have hinv : ((pre.length : Int) = -1 ∨
                (0 ≤ (pre.length : Int) ∧
                  (pre.length : Int) < ((pre ++ [c]).length : Int) ∧
                  (visualLengthAux ((pre ++ [c]).take ((pre.length : Int).toNat + 1))
                    false : Int) ≤ mw)) := by
              refine Or.inr ⟨Int.natCast_nonneg _, by simp, ?_⟩
              have ht : ((pre.length : Int)).toNat + 1 = (pre ++ [c]).length := by
                simp
              rw [ht, List.take_length, h2]
              omega
            have hIH := ih (pre ++ [c]) (pre.length : Int) (by rw [h2]; push_cast; omega)
              hinv
            rw [h1, h2, h3] at hIH
            have h4 : pre ++ [c] ++ cs = pre ++ c :: cs := by simp
            rw [h4] at hIH
            rw [if_pos hcb]
            obtain ⟨ha, hb, htake, hd⟩ := hIH
            refine ⟨ha, by simp only [List.length_cons]; push_cast at hb ⊢; omega, htake, ?_⟩
            intro hp
            rw [hvlcons] at hp
            have := hd (by push_cast; omega)
            simp only [List.length_cons]
            push_cast at this ⊢
            omega
          · have hIH := ih (pre ++ [c]) ls (by rw [h2]; push_cast; omega)
              (ls_inv_mono pre c ls mw hls)
            rw [h1, h2, h3] at hIH
            have h4 : pre ++ [c] ++ cs = pre ++ c :: cs := by simp
            rw [h4] at hIH
            rw [if_neg hcb]
            obtain ⟨ha, hb, htake, hd⟩ := hIH
            refine ⟨ha, by simp only [List.length_cons]; push_cast at hb ⊢; omega, htake, ?_⟩
            intro hp
            rw [hvlcons] at hp
            have := hd (by push_cast; omega)
            simp only [List.length_cons]
            push_cast at this ⊢
            omega

/-- The break-point scan on a whole string, under budget `mw ≥ 1` and a
string whose visible length exceeds the budget: the answer is
non-negative, strictly inside the string, and cuts a prefix whose
visible length is within budget. -/
theorem findBreakPoint_spec (s : List Char) (mw : Int) (hmw : 1 ≤ mw)
    (hlong : (visualLength s : Int) > mw) :
    0 ≤ findBreakPoint s mw ∧ findBreakPoint s mw < (s.length : Int) ∧
    (visualLengthAux (s.take (findBreakPoint s mw).toNat) false : Int) ≤ mw := by
  have h := findBreakPointAux_spec mw hmw s [] (-1)
    (by simp only [visualLengthAux]; omega) (Or.inl rfl)
  simp only [List.length_nil, visualLengthAux, escStateAux, List.nil_append,
    Nat.cast_zero, Int.zero_add, List.length_nil] at h
  unfold findBreakPoint
  rw [if_neg (by omega)]
  obtain ⟨ha, hb, htake, hd⟩ := h
  refine ⟨ha, ?_, htake⟩
  have hlong2 : (0 : Int) + (visualLengthAux s false : Int) > mw := by
    unfold visualLength at hlong
    omega
  have := hd (by omega)
  omega

/-- The adjusted break point, under the loop's entry condition: at least
one byte is consumed, at least one byte remains, and the cut prefix's
visible length is within the budget. -/
theorem wrapBreak_spec (aw : Int) (haw : 1 ≤ aw) (remaining : List Char)
    (hlong : (visualLength remaining : Int) > aw) :
    1 ≤ wrapBreak aw remaining ∧
    wrapBreak aw remaining < (remaining.length : Int) ∧
    (visualLength (remaining.take (wrapBreak aw remaining).toNat) : Int) ≤ aw := by
  have hfb := findBreakPoint_spec remaining aw haw hlong
  have hvl := visualLengthAux_le_length remaining false
  unfold wrapBreak
  split
  · refine ⟨haw, ?_, ?_⟩
    · unfold visualLength at hlong
      omega
    · have h1 : (remaining.take aw.toNat).length ≤ aw.toNat := by
        simp [List.length_take]
      have h2 := visualLengthAux_le_length (remaining.take aw.toNat) false
      unfold visualLength
      omega
  · exact ⟨by omega, hfb.2.1, hfb.2.2⟩

/-- The wrap loop never answers the empty row list for a non-empty
input. -/
theorem wrapLineAux_ne_nil (aw : Int) (fuel : Nat) (remaining : List Char)
    (h : remaining ≠ []) : wrapLineAux aw fuel remaining ≠ [] := by
  cases fuel with
  | zero => simp [wrapLineAux, h]
  | succ fuel =>
    unfold wrapLineAux
    split
    · simp
    · simp [h]

/-- The wrap loop's rows concatenate back to the input and each row's
visible length is within the budget. -/
theorem wrapLineAux_spec (aw : Int) (haw : 1 ≤ aw) :
    ∀ (fuel : Nat) (remaining : List Char), remaining.length ≤ fuel →
      (wrapLineAux aw fuel remaining).flatten = remaining ∧
      (∀ r ∈ wrapLineAux aw fuel remaining, (visualLength r : Int) ≤ aw) := by
  intro fuel
  induction fuel with
  | zero =>
    intro remaining h
    have hnil : remaining = [] := by
      cases remaining with
      | nil => rfl
      | cons a t => simp at h
    subst hnil
    simp [wrapLineAux]
  | succ fuel ih =>
    intro remaining hlen
    unfold wrapLineAux
    split
    · rename_i hcond
      obtain ⟨hne, hlong⟩ := hcond
      have hwb := wrapBreak_spec aw haw remaining hlong
      have hrest := ih (remaining.drop (wrapBreak aw remaining).toNat)
        (by simp only [List.length_drop]; omega)
      constructor
      · simp only [List.flatten_cons, hrest.1, List.take_append_drop]
      · intro r hr
        rcases List.mem_cons.mp hr with h | h
        · rw [h]
          exact hwb.2.2
        · exact hrest.2 r h
    · rename_i hcond
      split
      · rename_i hnil
        simp [hnil]
      · rename_i hne
        push_neg at hcond
        constructor
        · simp
        · intro r hr
          rw [List.mem_singleton.mp hr]
          exact hcond hne

/-- C9: for a line whose visible length exceeds the available width
(`width - 8`, the width minus the line-number gutter), wrapping yields
at least two rows, none of whose visible lengths (ANSI colour sequences
excluded) exceeds the available width, and the rows concatenate
byte-for-byte back to the original line, so no character is dropped or
duplicated. -/
theorem wrapLine_spec (line : List Char) (width lineNum : Int) (hw : 9 ≤ width)
    (hlong : (visualLength line : Int) > width - 8) :
    2 ≤ (wrapLine line width lineNum).length ∧
    (wrapLine line width lineNum).flatten = line ∧
    (∀ r ∈ wrapLine line width lineNum, (visualLength r : Int) ≤ width - 8) := by
  have haw : 1 ≤ width - 8 := by omega
  have hspec := wrapLineAux_spec (width - 8) haw (line.length + 1) line (by omega)
  have hred : wrapLine line width lineNum =
      wrapLineAux (width - 8) (line.length + 1) line := by
    unfold wrapLine
    rw [if_neg (by omega), if_neg (by omega)]
  rw [hred]
  refine ⟨?_, hspec.1, hspec.2⟩
  have hne : line ≠ [] := by
    intro h
    rw [h] at hlong
    simp only [visualLength, visualLengthAux] at hlong
    omega
  have hwb := wrapBreak_spec (width - 8) haw line hlong
  unfold wrapLineAux
  rw [if_pos ⟨hne, hlong⟩]
  simp only [List.length_cons]
  have hrest : line.drop (wrapBreak (width - 8) line).toNat ≠ [] := by
    intro h
    rw [List.drop_eq_nil_iff] at h
    omega
  have hnn := wrapLineAux_ne_nil (width - 8) line.length
    (line.drop (wrapBreak (width - 8) line).toNat) hrest
  have hpos := List.length_pos.mpr hnn
  omega

/-- Closed witness for the wrapping theorem: a 15-visible-character
line at width 20 (available width 12). -/
theorem wrapLine_spec_witness :
    2 ≤ (wrapLine "aaaaaaaaaaaaaaa".data 20 1).length ∧
    (wrapLine "aaaaaaaaaaaaaaa".data 20 1).flatten = "aaaaaaaaaaaaaaa".data ∧
    (∀ r ∈ wrapLine "aaaaaaaaaaaaaaa".data 20 1, (visualLength r : Int) ≤ 20 - 8) :=
  wrapLine_spec "aaaaaaaaaaaaaaa".data 20 1 (by decide) (by decide)
